import Mathlib

/-!
Verification development for the annotated-hypergraph library
(ahyper/annotated_hypergraph.py).

The Python code is shallowly embedded: the incidence list is a `List NEI`,
the stateful `AnnotatedHypergraph` object is the record `AHState`, mutating
methods become functions `AHState → AHState`, random draws become explicit
parameters, and fallible dictionary/array accesses return `Option`.
Floating point weights of the role-interaction matrix are modelled as
rationals; the step-allocation formula of the stub-labeled sampler, which
uses real logarithms, is modelled over the reals.
-/

namespace Ahyper

/-- Incidence record.  Modelled from the spec: the record type
(`NodeEdgeIncidence`) lives in the utils module of the repository, which is
not part of the provided source; its fields and constructor order
(nid, role, eid, meta) are fixed by every construction site in
annotated_hypergraph.py, and the spec describes it as the tuple
(node_id, role, edge_id, metadata) with opaque edge-level metadata
(modelled here as an optional number).  Node ids, role labels and edge ids
are modelled as naturals. -/
structure NEI where
  nid : Nat
  role : Nat
  eid : Nat
  meta : Option Nat
  deriving DecidableEq

/-- The four random draws of one iteration of the degeneracy-avoiding MCMC
loop: the two edge ids i, j (np.random.randint(0, m, 2)) and the two
incidence positions k, l (np.random.randint(len(E0)), ...). -/
structure Draw where
  i : Nat
  j : Nat
  k : Nat
  l : Nat
  deriving DecidableEq

/-- Sort-field tags.  The Python code addresses record fields by name
(strings) in `sort`; the tracked sort key is the string `"_".join(by)`, and
`remove_degeneracies` stores the out-of-band key `"custom"`.  The string
names nid/eid/role/custom are modelled by this enumeration, and the joined
key string by the list of tags (the join is injective on these names). -/
inductive FieldTag where
  | nid : FieldTag
  | eid : FieldTag
  | role : FieldTag
  | custom : FieldTag
  deriving DecidableEq

/-- getattr(x, b) for the sortable fields.  The `custom` tag is only ever
used as a stored sort-key value, never as a field name; it is given a junk
value here. -/
def fieldNat : FieldTag → NEI → Nat
  | FieldTag.nid, e => e.nid
  | FieldTag.eid, e => e.eid
  | FieldTag.role, e => e.role
  | FieldTag.custom, _ => 0

/-- Python's lexicographic comparison of equal-length lists of naturals
(used for the sort keys [getattr(x, b) for b in by]). -/
def lexLe : List Nat → List Nat → Bool
  | [], _ => true
  | _ :: _, [] => false
  | a :: as, b :: bs => if a < b then true else if b < a then false else lexLe as bs

/-- check_degenerate(E): len(set(nid of E)) != len(E). -/
def check_degenerate (E : List NEI) : Bool :=
  (E.map (fun e => e.nid)).dedup.length != E.length

/-- The per-edge grouping `edges = {k: list(v) for k, v in groupby(...)}`
used by the degeneracy-avoiding sampler, as an association list from edge
id to that edge's incidences.  Keys are distinct by construction (the
groupby runs over the eid-sorted incidence list). -/
abbrev EdgeMap := List (Nat × List NEI)

/-- Dictionary lookup edges[i]; `none` models the KeyError branch. -/
def lookupEdge : EdgeMap → Nat → Option (List NEI)
  | [], _ => none
  | p :: rest, i => if p.1 = i then some p.2 else lookupEdge rest i

/-- Dictionary assignment edges[i] = E (replaces the entry of the first
matching key, i.e. dict semantics on the distinct keys produced by
groupby). -/
def updateEdge : EdgeMap → Nat → List NEI → EdgeMap
  | [], _, _ => []
  | p :: rest, i, E => if p.1 = i then (i, E) :: rest else p :: updateEdge rest i E

/-- Reassembling self.IL from the edge dictionary:
[e for E in edges for e in edges[E]]. -/
def flattenEdges (edges : EdgeMap) : List NEI :=
  edges.flatMap (fun p => p.2)

/-- Outcome of one iteration of the while-loop body of
_degeneracy_avoiding_MCMC: a KeyError (edge id not a dictionary key), a
rejection (role mismatch or induced degeneracy; state unchanged, step not
counted), or an accepted proposal with the updated edge dictionary. -/
inductive StepResult where
  | keyError : StepResult
  | rejected : StepResult
  | accepted : EdgeMap → StepResult
  deriving DecidableEq

/-- One iteration of the while-loop body of _degeneracy_avoiding_MCMC,
with the four random draws passed in explicitly.  The position draws k, l
are always in range in the source (randint is bounded by the list length),
so out-of-range positions are folded into the keyError case, which is
reachable only through the dictionary lookups edges[i], edges[j]. -/
def mcmcAttempt (role_labels : Bool) (edges : EdgeMap) (d : Draw) : StepResult :=
  match lookupEdge edges d.i, lookupEdge edges d.j with
  | some E0, some E1 =>
    match E0.get? d.k, E1.get? d.l with
    | some e0, some e1 =>
      if role_labels && (e0.role != e1.role) then StepResult.rejected
      else
        let E0p := E0.set d.k ⟨e1.nid, e0.role, e0.eid, e0.meta⟩
        let E1p := E1.set d.l ⟨e0.nid, e1.role, e1.eid, e1.meta⟩
        if check_degenerate E0p || check_degenerate E1p then StepResult.rejected
        else StepResult.accepted (updateEdge (updateEdge edges d.i E0p) d.j E1p)
    | _, _ => StepResult.keyError
  | _, _ => StepResult.keyError

/-- Running the sampler body over a given sequence of draws, ignoring the
step counter (a rejected draw leaves the state unchanged and the loop goes
round again).  `none` models an uncaught KeyError. -/
def runMCMC (role_labels : Bool) : EdgeMap → List Draw → Option EdgeMap
  | edges, [] => some edges
  | edges, d :: ds =>
    match mcmcAttempt role_labels edges d with
    | StepResult.keyError => none
    | StepResult.rejected => runMCMC role_labels edges ds
    | StepResult.accepted E => runMCMC role_labels E ds

/-- Result of the fuel-bounded embedding of the while-loop of
_degeneracy_avoiding_MCMC: the loop finished because n_steps proposals
were accepted, or the supplied draws ran out first (with the state and the
accepted-step counter at that point), or a KeyError escaped. -/
inductive LoopResult where
  | done : EdgeMap → LoopResult
  | outOfDraws : EdgeMap → Nat → LoopResult
  | keyError : LoopResult
  deriving DecidableEq

/-- The while-loop `while N < n_steps` of _degeneracy_avoiding_MCMC,
embedded totally by bounding it with an explicit list of draws (the
source's loop is unbounded: it consumes fresh random draws until n_steps
proposals have been accepted). -/
def mcmcLoop (role_labels : Bool) (n_steps : Nat) : EdgeMap → Nat → List Draw → LoopResult
  | edges, accepted, [] =>
    if n_steps ≤ accepted then LoopResult.done edges
    else LoopResult.outOfDraws edges accepted
  | edges, accepted, d :: ds =>
    if n_steps ≤ accepted then LoopResult.done edges
    else
      match mcmcAttempt role_labels edges d with
      | StepResult.keyError => LoopResult.keyError
      | StepResult.rejected => mcmcLoop role_labels n_steps edges accepted ds
      | StepResult.accepted E => mcmcLoop role_labels n_steps E (accepted + 1) ds

/-- The range constraints that the random draws of one loop iteration
satisfy by construction in the source: edge indices below self.m and
positions below the length of the drawn edge's incidence list. -/
def drawValidFor (edges : EdgeMap) (m : Nat) (d : Draw) : Prop :=
  d.i < m ∧ d.j < m ∧
    d.k < ((lookupEdge edges d.i).getD []).length ∧
    d.l < ((lookupEdge edges d.j).getD []).length

instance (edges : EdgeMap) (m : Nat) (d : Draw) : Decidable (drawValidFor edges m d) := by
  unfold drawValidFor; infer_instance

/-- The AnnotatedHypergraph object: the incidence list IL, the declared
role list, and the attributes maintained by set_states /
assign_role_interaction_matrix / sort (node_list, edge_list, n, m, the
optional role-interaction matrix R, and the tracked sort key). -/
structure AHState where
  IL : List NEI
  roles : List Nat
  node_list : List Nat
  edge_list : List Nat
  n : Nat
  m : Nat
  R : Option (List (List ℚ))
  sort_key : Option (List FieldTag)
  deriving DecidableEq

/-- np.unique: the sorted list of distinct values.  Python's stable sort is
modelled by insertionSort throughout. -/
def uniqueSorted (l : List Nat) : List Nat :=
  l.dedup.insertionSort (fun a b => a ≤ b)

/-- set_states: recompute node_list / edge_list / n / m from IL and reset
R and the tracked sort key to None. -/
def set_states (s : AHState) : AHState :=
  { s with
    node_list := uniqueSorted (s.IL.map (fun e => e.nid))
    edge_list := uniqueSorted (s.IL.map (fun e => e.eid))
    n := (uniqueSorted (s.IL.map (fun e => e.nid))).length
    m := (uniqueSorted (s.IL.map (fun e => e.eid))).length
    R := none
    sort_key := none }

/-- sort(by, reverse): if the tracked key equals the requested key the sort
is skipped; otherwise IL is stably sorted by the lexicographic key
[getattr(x, b) for b in by].  Note that the source never assigns
self.sort_key in this method.  reverse=True is Python's stable descending
sort, modelled by the flipped comparator (equal keys keep their relative
order in both). -/
def sort (s : AHState) (bys : List FieldTag) (reverse : Bool) : AHState :=
  if s.sort_key = some bys then s
  else
    { s with
      IL := s.IL.insertionSort (fun a b =>
        (if reverse then lexLe (bys.map (fun f => fieldNat f b)) (bys.map (fun f => fieldNat f a))
         else lexLe (bys.map (fun f => fieldNat f a)) (bys.map (fun f => fieldNat f b))) = true) }

/-- get_IL: sorted(self.IL, key=eid, reverse=True); a fresh list, the
store is untouched. -/
def get_IL (s : AHState) : List NEI :=
  s.IL.insertionSort (fun a b => decide (b.eid ≤ a.eid) = true)

/-- __init__ (for data already in incidence-list form): store IL and
roles, set_states, then sort(by="eid").  The derived fields are all
overwritten by set_states. -/
def init (IL : List NEI) (roles : List Nat) : AHState :=
  sort (set_states ⟨IL, roles, [], [], 0, 0, none, none⟩) [FieldTag.eid] false

/-- The distinct edge ids of the store (in np.unique order). -/
def edgeKeys (s : AHState) : List Nat :=
  uniqueSorted (s.IL.map (fun e => e.eid))

/-- The grouping step of _degeneracy_avoiding_MCMC:
self.sort(by=["eid","role"]); groupby(self.IL, eid); dict of the groups.
On the eid-sorted list the groupby runs are exactly the per-eid filters,
listed in ascending key order. -/
def buildEdges (s : AHState) : EdgeMap :=
  let s1 := sort s [FieldTag.eid, FieldTag.role] false
  (uniqueSorted (s1.IL.map (fun e => e.eid))).map
    (fun e => (e, s1.IL.filter (fun x => x.eid == e)))

/-- edge_dimensions() (no role split): dict(Counter(eids)); the entry of
one edge id.  (The self.sort(by="role") call the method performs first
does not change any count.) -/
def edge_dimensions_plain (l : List NEI) (e : Nat) : Nat :=
  (l.map (fun x => x.eid)).count e

/-- edge_dimensions(by_role=True): after sorting by role, the incidences
are grouped by role and the eids of each role group are counted;
D[e][r] = Counter(eid of the role-r group)[e], i.e. the number of
incidences with this eid in the role-r part of IL (the sort permutes IL
and so changes no count). -/
def edge_dimensions_by_role (l : List NEI) (e r : Nat) : Nat :=
  ((l.filter (fun x => x.role == r)).map (fun x => x.eid)).count e

/-- node_degrees(by_role=True): symmetric to edge_dimensions_by_role over
nodes; D[v][r] is the number of incidences of node v with role r. -/
def node_degrees_by_role (l : List NEI) (v r : Nat) : Nat :=
  ((l.filter (fun x => x.role == r)).map (fun x => x.nid)).count v

/-- count_degeneracies: sort by eid, group by eid, count the degenerate
groups (groupby runs on the eid-sorted list = per-eid filters). -/
def count_degeneracies (s : AHState) : Nat :=
  let s1 := sort s [FieldTag.eid] false
  ((uniqueSorted (s1.IL.map (fun e => e.eid))).map
    (fun e => s1.IL.filter (fun x => x.eid == e))).countP check_degenerate

/-- The number of degenerate edges of the sampler's edge dictionary. -/
def countDeg (edges : EdgeMap) : Nat :=
  edges.countP (fun p => check_degenerate p.2)

/-- The loop body of relabel_by_field: walking the field-sorted list with
the sentinel old = 0 and counter j = 0; a new field value bumps the
counter, and every record's field is overwritten with the current
counter. -/
def relabelGo (getF : NEI → Nat) (setF : NEI → Nat → NEI) : List NEI → Nat → Nat → List NEI
  | [], _, _ => []
  | e :: rest, old, j =>
    if getF e ≠ old then setF e (j + 1) :: relabelGo getF setF rest (getF e) (j + 1)
    else setF e j :: relabelGo getF setF rest old j

/-- relabel_by_field(D, field): D.sort(key=field) followed by the
sentinel walk. -/
def relabel_by_field (getF : NEI → Nat) (setF : NEI → Nat → NEI) (l : List NEI) : List NEI :=
  relabelGo getF setF (l.insertionSort (fun a b => getF a ≤ getF b)) 0 0

/-- relabel: relabel_by_field on eid, then on nid, then set_states. -/
def relabel (s : AHState) : AHState :=
  set_states
    { s with
      IL := relabel_by_field (fun e => e.nid) (fun e v => { e with nid := v })
        (relabel_by_field (fun e => e.eid) (fun e v => { e with eid := v }) s.IL) }

/-- remove_singletons: D = self.edge_dimensions() (which first sorts IL by
role); collect the incidences whose edge dimension is 1; remove each of
them (list.remove, first occurrence) from IL; relabel; set_states. -/
def remove_singletons (s : AHState) : AHState :=
  let s1 := sort s [FieldTag.role] false
  let to_remove := s1.IL.filter (fun e => edge_dimensions_plain s1.IL e.eid == 1)
  set_states (relabel { s1 with IL := to_remove.foldl (fun acc e => acc.erase e) s1.IL })

/-- The per-edge dedup loop of remove_degeneracies: keep an incidence only
if its nid has not been kept already within the edge. -/
def keepFirstNids : List NEI → List Nat → List NEI
  | [], _ => []
  | e :: rest, seen =>
    if e.nid ∈ seen then keepFirstNids rest seen
    else e :: keepFirstNids rest (e.nid :: seen)

/-- remove_degeneracies(precedence): sort IL by (eid, nid, precedence of
role); record the out-of-band sort key "custom"; group by eid (runs of the
eid-primary sorted list = per-eid filters in ascending eid order); in each
edge keep only the first incidence of every nid; flatten; sort the result
by role; relabel.  (The printed removal count is informational only.) -/
def remove_degeneracies (s : AHState) (prec : Nat → Nat) : AHState :=
  let sorted := s.IL.insertionSort (fun a b =>
    lexLe [a.eid, a.nid, prec a.role] [b.eid, b.nid, prec b.role] = true)
  let IL1 := ((uniqueSorted (sorted.map (fun e => e.eid))).map
    (fun e => keepFirstNids (sorted.filter (fun x => x.eid == e)) [])).flatten
  relabel { s with IL := IL1.insertionSort (fun a b => a.role ≤ b.role)
                   sort_key := some [FieldTag.custom] }

/-- A stub: the (nid, role) pair of an incidence. -/
abbrev Stub := Nat × Nat

/-- stubs = [(e.nid, e.role) for e in self.IL]. -/
def stubList (l : List NEI) : List Stub :=
  l.map (fun e => (e.nid, e.role))

/-- The inner loops of stub_matching for one edge e: for r in self.roles,
pop dims[e][r] stubs from the front of role r's queue and emit an
incidence (nid=stub, role=stub's role, eid=e, meta=None) for each.  The
queues are threaded as an association list (role, queue) in role order;
`none` models the IndexError of pop(0) on an exhausted queue. -/
def takeEdge (dims : Nat → Nat → Nat) (e : Nat) :
    List (Nat × List Stub) → Option (List NEI × List (Nat × List Stub))
  | [] => some ([], [])
  | rq :: rest =>
    if dims e rq.1 ≤ rq.2.length then
      match takeEdge dims e rest with
      | some (il, rest') =>
        some (((rq.2.take (dims e rq.1)).map (fun st => ⟨st.1, st.2, e, none⟩)) ++ il,
          (rq.1, rq.2.drop (dims e rq.1)) :: rest')
      | none => none
    else none

/-- The outer loop of stub_matching: for e in dims (the keys self.edge_list
in order), run takeEdge and accumulate the new incidence list. -/
def buildAll (dims : Nat → Nat → Nat) : List Nat → List (Nat × List Stub) → Option (List NEI)
  | [], _ => some []
  | e :: es, queues =>
    match takeEdge dims e queues with
    | some (il, queues') =>
      match buildAll dims es queues' with
      | some rest => some (il ++ rest)
      | none => none
    | none => none

/-- stub_matching: dims = edge_dimensions(by_role=True) (which sorts IL by
role first); stubs = the (nid, role) pairs of the role-sorted IL, shuffled
(the shuffle's output is the explicit parameter `shuffled`), stably sorted
by role and grouped into per-role queues (groupby runs of the role-sorted
stub list = per-role filters); then the new incidence list is built edge
by edge and installed on a deep copy of self, followed by set_states. -/
def stub_matching (s : AHState) (shuffled : List Stub) : Option AHState :=
  let s1 := sort s [FieldTag.role] false
  let sortedStubs := shuffled.insertionSort (fun a b => a.2 ≤ b.2)
  let queues := s.roles.map (fun r => (r, sortedStubs.filter (fun p => p.2 == r)))
  match buildAll (fun e r => edge_dimensions_by_role s1.IL e r) s.edge_list queues with
  | some IL2 => some (set_states { s1 with IL := IL2 })
  | none => none

/-- itertools.permutations(E, 2): the ordered pairs of entries of E taken
at distinct positions.  (The enumeration order differs from itertools';
only the order-independent accumulated sums of these pairs are used.) -/
def orderedPairs : List NEI → List (NEI × NEI)
  | [] => []
  | x :: xs => (xs.map (fun y => (x, y))) ++ (xs.map (fun y => (y, x))) ++ orderedPairs xs

/-- role_map: the index of a role label in self.roles. -/
def roleIndex (roles : List Nat) (r : Nat) : Nat :=
  roles.indexOf r

/-- R[i, j] for the list-of-rows matrix model.  Out-of-range indices
(never produced by in-range role lookups) default to 0. -/
def Rget (M : List (List ℚ)) (i j : Nat) : ℚ :=
  (M.getD i []).getD j 0

/-- np.ones((k, k)). -/
def allOnes (k : Nat) : List (List ℚ) :=
  List.replicate k (List.replicate k (1 : ℚ))

/-- assign_role_interaction_matrix(R): with a matrix, assert both
dimensions equal len(self.roles) (`none` models the AssertionError) and
store it; with None, store the all-ones matrix. -/
def assign_role_interaction_matrix (s : AHState) (R : Option (List (List ℚ))) : Option AHState :=
  match R with
  | some M =>
    if M.length = s.roles.length ∧ ∀ row ∈ M, row.length = s.roles.length then
      some { s with R := some M }
    else none
  | none => some { s with R := some (allOnes s.roles.length) }

/-- The ordered incidence pairs accumulated by to_weighted_projection: for
eid, edge in groupby(self.get_IL(), eid) — get_IL is sorted by eid in
descending order, so the runs are the per-eid filters in descending key
order — all ordered pairs of distinct incidences of the edge. -/
def projPairs (s : AHState) : List (NEI × NEI) :=
  ((uniqueSorted ((get_IL s).map (fun e => e.eid))).reverse).flatMap
    (fun e => orderedPairs ((get_IL s).filter (fun x => x.eid == e)))

/-- One `weighted_edges[a.nid][b.nid] += R[role_map[a.role],
role_map[b.role]]` update of the accumulated weight function. -/
def projStep (roles : List Nat) (M : List (List ℚ)) (W : Nat → Nat → ℚ)
    (p : NEI × NEI) : Nat → Nat → ℚ :=
  fun u v =>
    if u = p.1.nid ∧ v = p.2.nid then
      W u v + Rget M (roleIndex roles p.1.role) (roleIndex roles p.2.role)
    else W u v

/-- The accumulation loop of to_weighted_projection with an explicit
role-interaction matrix M: starting from the empty defaultdict (weight 0
everywhere), each ordered pair (a, b) adds M[role_map[a.role],
role_map[b.role]] to weighted_edges[a.nid][b.nid]. -/
def projWith (s : AHState) (M : List (List ℚ)) : Nat → Nat → ℚ :=
  (projPairs s).foldl (projStep s.roles M) (fun _ _ => (0 : ℚ))

/-- to_weighted_projection (dictionary output): if self.R is None the
all-ones default is assigned first; the returned nested mapping is the
accumulated weight function. -/
def to_weighted_projection (s : AHState) : Nat → Nat → ℚ :=
  projWith s (s.R.getD (allOnes s.roles.length))

/-- Sum over the role indices 0..k-1 of a rational-valued function. -/
def roleSum (k : Nat) (f : Nat → ℚ) : ℚ :=
  ((List.range k).map f).sum

/-- null_expectation_matrix, entrywise: with K the edge-by-role dimension
matrix, D the node-by-role degree matrix, D_ the column sums of D and
Gamma = (K^T K) / outer(D_, D_), the entry for nodes u, v is
sum over role indices x, y of D[u,x] * D[v,y] * Gamma[x,y] * R[x,y]
(all-ones R assigned first when self.R is None).  Rational division by a
zero column sum yields 0 here (numpy would produce a non-number; no claim
depends on that branch). -/
def null_expectation_matrix (s : AHState) (u v : Nat) : ℚ :=
  let M := s.R.getD (allOnes s.roles.length)
  let role := fun x => s.roles.getD x 0
  let K := fun e x => (edge_dimensions_by_role s.IL e (role x) : ℚ)
  let D := fun w x => (node_degrees_by_role s.IL w (role x) : ℚ)
  let Dsum := fun x => ((s.node_list.map (fun w => D w x)).sum)
  let Gamma := fun x y => ((s.edge_list.map (fun e => K e x * K e y)).sum) / (Dsum x * Dsum y)
  roleSum s.roles.length (fun x => roleSum s.roles.length (fun y =>
    D u x * D v y * Gamma x y * Rget M x y))

/-- astype(int): truncation toward zero. -/
noncomputable def rtrunc (x : ℝ) : ℤ :=
  if 0 ≤ x then ⌊x⌋ else ⌈x⌉

/-- The step allocation of _stub_labeled_MCMC, with N the list of role
partition sizes:  steps = ((N * np.log(N)) / (N * np.log(N).sum()) *
n_steps).astype(int).  By Python precedence the .sum() applies to
np.log(N) alone, so the elementwise denominator is N_i times the sum of
the logarithms. -/
noncomputable def stub_steps (N : List Nat) (n_steps : Nat) : List ℤ :=
  N.map (fun Ni : Nat => rtrunc (((Ni : ℝ) * Real.log (Ni : ℝ)) /
    ((Ni : ℝ) * (N.map (fun Nj : Nat => Real.log (Nj : ℝ))).sum) * (n_steps : ℝ)))

/-- The allocation the specification describes (stated from the spec's
words, for comparison with stub_steps): the integer part of n_steps *
N_i * log(N_i) / sum over j of N_j * log(N_j). -/
noncomputable def claimed_steps (N : List Nat) (n_steps : Nat) : List ℤ :=
  N.map (fun Ni : Nat => rtrunc (((Ni : ℝ) * Real.log (Ni : ℝ)) /
    ((N.map (fun Nj : Nat => (Nj : ℝ) * Real.log (Nj : ℝ))).sum) * (n_steps : ℝ)))

/-! Concrete stores and edge dictionaries used to instantiate the theorems
below. -/

/-- A two-edge store: node 1 a source of edge 0, node 2 a source of edge 1. -/
def ex1 : AHState :=
  ⟨[⟨1, 0, 0, none⟩, ⟨2, 0, 1, none⟩], [0], [1, 2], [0, 1], 2, 2, none, none⟩

/-- The edge dictionary after the one accepted swap of the witness run on ex1. -/
def exE1 : EdgeMap := [(0, [⟨2, 0, 0, none⟩]), (1, [⟨1, 0, 1, none⟩])]

/-- A single degenerate edge (node 7 twice): every valid draw of the
degeneracy-avoiding sampler is rejected on it. -/
def spinEdges : EdgeMap := [(0, [⟨7, 0, 0, none⟩, ⟨7, 0, 0, none⟩])]

/-- A one-incidence store used to exhibit the sort-key behaviour. -/
def ex5 : AHState := ⟨[⟨1, 0, 0, none⟩], [0], [1], [0], 1, 1, none, none⟩

/-- A one-edge, two-role store with fresh derived state. -/
def ex6 : AHState :=
  ⟨[⟨1, 0, 0, none⟩, ⟨2, 1, 0, none⟩], [0, 1], [1, 2], [0], 2, 1, none, none⟩

/-- A store whose singleton edge carries the smallest edge id 0; the other
edge (id 1) has dimension 2. -/
def ex8 : AHState :=
  ⟨[⟨5, 0, 0, none⟩, ⟨6, 0, 1, none⟩, ⟨7, 0, 1, none⟩], [0], [5, 6, 7], [0, 1], 3, 2, none, none⟩

/-! Association-list lemmas for the sampler's edge dictionary. -/

theorem lookupEdge_eq_none_iff (E : EdgeMap) (i : Nat) :
    lookupEdge E i = none ↔ i ∉ E.map Prod.fst := by
  induction E with
  | nil => simp [lookupEdge]
  | cons p rest ih =>
    simp only [lookupEdge, List.map_cons, List.mem_cons]
    by_cases h : p.1 = i
    · simp [h]
    · have : ¬i = p.1 := fun hc => h hc.symm
      simp [h, this, ih]

theorem lookup_updateEdge_ne (E : EdgeMap) (i j : Nat) (V : List NEI) (h : i ≠ j) :
    lookupEdge (updateEdge E i V) j = lookupEdge E j := by
  induction E with
  | nil => simp [updateEdge]
  | cons p rest ih =>
    by_cases hp : p.1 = i
    · simp [updateEdge, hp, lookupEdge, h, Ne.symm h]
    · simp [updateEdge, hp, lookupEdge, ih]

theorem updateEdge_updateEdge (E : EdgeMap) (i : Nat) (V W : List NEI) :
    updateEdge (updateEdge E i V) i W = updateEdge E i W := by
  induction E with
  | nil => simp [updateEdge]
  | cons p rest ih =>
    by_cases hp : p.1 = i
    · simp [updateEdge, hp]
    · simp [updateEdge, hp, ih]

theorem updateEdge_self (E : EdgeMap) (i : Nat) (V : List NEI)
    (h : lookupEdge E i = some V) : updateEdge E i V = E := by
  induction E with
  | nil => rfl
  | cons p rest ih =>
    simp only [lookupEdge] at h
    by_cases hp : p.1 = i
    · rw [if_pos hp] at h
      have hV : p.2 = V := by simpa using h
      have hpair : p = (i, V) := Prod.ext hp hV
      simp [updateEdge, hp, hpair]
    · rw [if_neg hp] at h
      simp [updateEdge, hp, ih h]

theorem perm_cons_append_singleton {α : Type} (a b : α) (l : List α) :
    (a :: (l ++ [b])).Perm (b :: (l ++ [a])) := by
  have h1 : (a :: (l ++ [b])).Perm (a :: (b :: l)) :=
    List.Perm.cons a (List.perm_append_singleton b l)
  have h2 : (a :: b :: l).Perm (b :: a :: l) := List.Perm.swap b a l
  have h3 : (b :: (a :: l)).Perm (b :: (l ++ [a])) :=
    List.Perm.cons b (List.perm_append_singleton a l).symm
  exact (h1.trans h2).trans h3

theorem perm_middle_swap {α : Type} (A V X : List α) :
    (V ++ (A ++ X)).Perm (A ++ (V ++ X)) := by
  rw [← List.append_assoc, ← List.append_assoc]
  exact List.perm_append_comm.append_right X

theorem updateEdge_entries_perm (E : EdgeMap) (i : Nat) (A V : List NEI)
    (h : lookupEdge E i = some A) :
    (updateEdge E i V ++ [(i, A)]).Perm (E ++ [(i, V)]) := by
  induction E with
  | nil => simp [lookupEdge] at h
  | cons p rest ih =>
    simp only [lookupEdge] at h
    by_cases hp : p.1 = i
    · rw [if_pos hp] at h
      have hA : p.2 = A := by simpa using h
      have hpair : p = (i, A) := Prod.ext hp hA
      have hupd : updateEdge (p :: rest) i V = (i, V) :: rest := by
        simp [updateEdge, hp]
      rw [hupd, hpair, List.cons_append, List.cons_append]
      exact perm_cons_append_singleton (i, V) (i, A) rest
    · rw [if_neg hp] at h
      have hupd : updateEdge (p :: rest) i V = p :: updateEdge rest i V := by
        simp [updateEdge, hp]
      rw [hupd, List.cons_append, List.cons_append]
      exact List.Perm.cons p (ih h)

theorem flattenEdges_cons (p : Nat × List NEI) (rest : EdgeMap) :
    flattenEdges (p :: rest) = p.2 ++ flattenEdges rest := by
  simp [flattenEdges]

theorem flattenEdges_updateEdge_perm (E : EdgeMap) (i : Nat) (A V : List NEI)
    (h : lookupEdge E i = some A) :
    (flattenEdges (updateEdge E i V) ++ A).Perm (flattenEdges E ++ V) := by
  induction E with
  | nil => simp [lookupEdge] at h
  | cons p rest ih =>
    simp only [lookupEdge] at h
    by_cases hp : p.1 = i
    · rw [if_pos hp] at h
      have hA : p.2 = A := by simpa using h
      have hupd : updateEdge (p :: rest) i V = (i, V) :: rest := by
        simp [updateEdge, hp]
      rw [hupd, flattenEdges_cons, flattenEdges_cons, hA]
      rw [List.append_assoc, List.append_assoc]
      have h1 : (V ++ (flattenEdges rest ++ A)).Perm (V ++ (A ++ flattenEdges rest)) :=
        List.Perm.append_left V List.perm_append_comm
      have h2 : (V ++ (A ++ flattenEdges rest)).Perm (A ++ (V ++ flattenEdges rest)) :=
        perm_middle_swap A V (flattenEdges rest)
      have h3 : (A ++ (V ++ flattenEdges rest)).Perm (A ++ (flattenEdges rest ++ V)) :=
        List.Perm.append_left A List.perm_append_comm
      exact (h1.trans h2).trans h3
    · rw [if_neg hp] at h
      have hupd : updateEdge (p :: rest) i V = p :: updateEdge rest i V := by
        simp [updateEdge, hp]
      rw [hupd, flattenEdges_cons, flattenEdges_cons]
      rw [List.append_assoc, List.append_assoc]
      exact List.Perm.append_left p.2 (ih h)

theorem map_set_perm {α β : Type} (l : List α) (k : Nat) (x : α) (h : k < l.length)
    (f : α → β) :
    ((l.set k x).map f ++ [f (l.get ⟨k, h⟩)]).Perm (l.map f ++ [f x]) := by
  induction l generalizing k with
  | nil => simp at h
  | cons e rest ih =>
    cases k with
    | zero =>
      show (f x :: ((rest.map f) ++ [f e])).Perm (f e :: ((rest.map f) ++ [f x]))
      exact perm_cons_append_singleton (f x) (f e) (rest.map f)
    | succ k =>
      have h' : k < rest.length := by simpa using h
      show (f e :: ((rest.set k x).map f ++ [f (rest.get ⟨k, h'⟩)])).Perm
        (f e :: (rest.map f ++ [f x]))
      exact List.Perm.cons (f e) (ih k h')

theorem set_get_self {α : Type} (l : List α) (k : Nat) (h : k < l.length) :
    l.set k (l.get ⟨k, h⟩) = l := by
  induction l generalizing k with
  | nil => simp at h
  | cons e rest ih =>
    cases k with
    | zero => rfl
    | succ k =>
      have h' : k < rest.length := by simpa using h
      show e :: rest.set k (rest.get ⟨k, h'⟩) = e :: rest
      rw [ih k h']

theorem check_degenerate_eq_false_iff (E : List NEI) :
    check_degenerate E = false ↔ (E.map (fun e => e.nid)).Nodup := by
  unfold check_degenerate
  constructor
  · intro h
    have hlen : (E.map (fun e => e.nid)).dedup.length = (E.map (fun e => e.nid)).length := by
      simpa using h
    have hsub : (E.map (fun e => e.nid)).dedup.Sublist (E.map (fun e => e.nid)) :=
      List.dedup_sublist _
    have : (E.map (fun e => e.nid)).dedup = E.map (fun e => e.nid) :=
      hsub.eq_of_length hlen
    rw [← this]
    exact List.nodup_dedup _
  · intro h
    have : (E.map (fun e => e.nid)).dedup = E.map (fun e => e.nid) := List.dedup_eq_self.2 h
    simp [this]

theorem mcmcAttempt_accepted_inv (rl : Bool) (edges : EdgeMap) (d : Draw) (E' : EdgeMap)
    (h : mcmcAttempt rl edges d = StepResult.accepted E') :
    ∃ E0 E1 e0 e1,
      lookupEdge edges d.i = some E0 ∧ lookupEdge edges d.j = some E1 ∧
      E0.get? d.k = some e0 ∧ E1.get? d.l = some e1 ∧
      (rl = true → e0.role = e1.role) ∧
      check_degenerate (E0.set d.k ⟨e1.nid, e0.role, e0.eid, e0.meta⟩) = false ∧
      check_degenerate (E1.set d.l ⟨e0.nid, e1.role, e1.eid, e1.meta⟩) = false ∧
      E' = updateEdge (updateEdge edges d.i (E0.set d.k ⟨e1.nid, e0.role, e0.eid, e0.meta⟩))
        d.j (E1.set d.l ⟨e0.nid, e1.role, e1.eid, e1.meta⟩) := by
  unfold mcmcAttempt at h
  split at h
  case h_2 => exact absurd h (by simp)
  case h_1 E0 E1 h0 h1 =>
    split at h
    case h_2 => exact absurd h (by simp)
    case h_1 e0 e1 hk hl =>
      by_cases hrole : rl && (e0.role != e1.role)
      · rw [if_pos hrole] at h
        exact absurd h (by simp)
      · rw [if_neg hrole] at h
        by_cases hdeg : check_degenerate (E0.set d.k ⟨e1.nid, e0.role, e0.eid, e0.meta⟩) ||
            check_degenerate (E1.set d.l ⟨e0.nid, e1.role, e1.eid, e1.meta⟩)
        · rw [if_pos hdeg] at h
          exact absurd h (by simp)
        · rw [if_neg hdeg] at h
          simp only [Bool.and_eq_true, bne_iff_ne, not_and, Decidable.not_not] at hrole
          simp only [Bool.or_eq_true, not_or, Bool.not_eq_true] at hdeg
          refine ⟨E0, E1, e0, e1, h0, h1, hk, hl, hrole, hdeg.1, hdeg.2, ?_⟩
          injection h with h
          exact h.symm

theorem step_accepted_same_edge (rl : Bool) (edges : EdgeMap) (d : Draw) (E' : EdgeMap)
    (hij : d.i = d.j) (h : mcmcAttempt rl edges d = StepResult.accepted E') : E' = edges := by
  obtain ⟨E0, E1, e0, e1, h0, h1, hk, hl, _, hc0, hc1, hE⟩ :=
    mcmcAttempt_accepted_inv rl edges d E' h
  rw [hij] at h0
  have hE01 : E0 = E1 := by
    rw [h0] at h1
    injection h1
  subst hE01
  obtain ⟨hkl, hgk⟩ := List.get?_eq_some.1 hk
  obtain ⟨hll, hgl⟩ := List.get?_eq_some.1 hl
  by_cases hkeql : d.k = d.l
  · have he01 : e0 = e1 := by
      rw [hkeql] at hk
      rw [hk] at hl
      injection hl
    subst he01
    rw [← hkeql] at hE
    have hset1 : E0.set d.k ⟨e0.nid, e0.role, e0.eid, e0.meta⟩ = E0 := by
      have heta : (⟨e0.nid, e0.role, e0.eid, e0.meta⟩ : NEI) = e0 := rfl
      rw [heta, ← hgk, set_get_self]
    rw [hset1] at hE
    rw [hE, hij, updateEdge_updateEdge, updateEdge_self edges d.j E0 h0]
  · exfalso
    have hlen : d.k < (E0.set d.l ⟨e0.nid, e1.role, e1.eid, e1.meta⟩).length := by
      simpa using hkl
    have hgetk : (E0.set d.l ⟨e0.nid, e1.role, e1.eid, e1.meta⟩).get ⟨d.k, hlen⟩ = e0 := by
      rw [List.get_eq_getElem]
      rw [List.getElem_set_ne (fun hc => hkeql hc.symm)]
      simpa using hgk
    have hll2 : d.l < (E0.set d.l ⟨e0.nid, e1.role, e1.eid, e1.meta⟩).length := by
      simpa using hll
    have hgetl : (E0.set d.l ⟨e0.nid, e1.role, e1.eid, e1.meta⟩).get ⟨d.l, hll2⟩ =
        (⟨e0.nid, e1.role, e1.eid, e1.meta⟩ : NEI) := by
      rw [List.get_eq_getElem]
      rw [List.getElem_set_self]
    have hnodup : ((E0.set d.l ⟨e0.nid, e1.role, e1.eid, e1.meta⟩).map
        (fun e => e.nid)).Nodup := (check_degenerate_eq_false_iff _).1 hc1
    have hinj := List.nodup_iff_injective_get.1 hnodup
    have hkm : d.k < ((E0.set d.l ⟨e0.nid, e1.role, e1.eid, e1.meta⟩).map
        (fun e => e.nid)).length := by simpa using hlen
    have hlm : d.l < ((E0.set d.l ⟨e0.nid, e1.role, e1.eid, e1.meta⟩).map
        (fun e => e.nid)).length := by simpa using hll2
    have hgk2 : ((E0.set d.l ⟨e0.nid, e1.role, e1.eid, e1.meta⟩).map
        (fun e => e.nid)).get ⟨d.k, hkm⟩ = e0.nid := by
      simp only [List.get_eq_getElem, List.getElem_map]
      have := congrArg NEI.nid hgetk
      simpa using this
    have hgl2 : ((E0.set d.l ⟨e0.nid, e1.role, e1.eid, e1.meta⟩).map
        (fun e => e.nid)).get ⟨d.l, hlm⟩ = e0.nid := by
      simp only [List.get_eq_getElem, List.getElem_map]
      have := congrArg NEI.nid hgetl
      simpa using this
    have hfin : (⟨d.k, hkm⟩ : Fin _) = ⟨d.l, hlm⟩ := hinj (by rw [hgk2, hgl2])
    exact hkeql (by simpa using hfin)

theorem cancel_chain {β : Type} [AddCancelCommMonoid β] (X A B S0 S1 S0p S1p u0 u1 : β)
    (q2 : X + S1 = B + S1p) (q1 : B + S0 = A + S0p)
    (r1 : S0p + u0 = S0 + u1) (r2 : S1p + u1 = S1 + u0) : X = A := by
  have key : X + (S1 + (S0 + (u0 + u1))) = A + (S1 + (S0 + (u0 + u1))) := by
    calc X + (S1 + (S0 + (u0 + u1)))
        = (X + S1) + (S0 + (u0 + u1)) := by abel
      _ = (B + S1p) + (S0 + (u0 + u1)) := by rw [q2]
      _ = (S1p + u1) + ((B + S0) + u0) := by abel
      _ = (S1 + u0) + ((B + S0) + u0) := by rw [r2]
      _ = (B + S0) + (S1 + (u0 + u0)) := by abel
      _ = (A + S0p) + (S1 + (u0 + u0)) := by rw [q1]
      _ = (S0p + u0) + ((A + S1) + u0) := by abel
      _ = (S0 + u1) + ((A + S1) + u0) := by rw [r1]
      _ = A + (S1 + (S0 + (u0 + u1))) := by abel
  exact add_right_cancel key

/-- The multiset of (node id, role) pairs of an incidence list. -/
def stubMS (L : List NEI) : Multiset Stub :=
  (L.map (fun e => (e.nid, e.role)) : List Stub)

theorem step_stub_multiset (edges : EdgeMap) (d : Draw) (E' : EdgeMap)
    (h : mcmcAttempt true edges d = StepResult.accepted E') :
    stubMS (flattenEdges E') = stubMS (flattenEdges edges) := by
  obtain ⟨E0, E1, e0, e1, h0, h1, hk, hl, hrole, hc0, hc1, hE⟩ :=
    mcmcAttempt_accepted_inv true edges d E' h
  have hr : e0.role = e1.role := hrole rfl
  by_cases hij : d.i = d.j
  · rw [step_accepted_same_edge true edges d E' hij h]
  · obtain ⟨hkl, hgk⟩ := List.get?_eq_some.1 hk
    obtain ⟨hll, hgl⟩ := List.get?_eq_some.1 hl
    have hlookup1 : lookupEdge
        (updateEdge edges d.i (E0.set d.k ⟨e1.nid, e0.role, e0.eid, e0.meta⟩)) d.j =
        some E1 := by
      rw [lookup_updateEdge_ne edges d.i d.j _ hij]
      exact h1
    have P1 := flattenEdges_updateEdge_perm edges d.i E0
      (E0.set d.k ⟨e1.nid, e0.role, e0.eid, e0.meta⟩) h0
    have P2 := flattenEdges_updateEdge_perm
      (updateEdge edges d.i (E0.set d.k ⟨e1.nid, e0.role, e0.eid, e0.meta⟩)) d.j E1
      (E1.set d.l ⟨e0.nid, e1.role, e1.eid, e1.meta⟩) hlookup1
    have R1 := map_set_perm E0 d.k ⟨e1.nid, e0.role, e0.eid, e0.meta⟩ hkl
      (fun e => (e.nid, e.role))
    have R2 := map_set_perm E1 d.l ⟨e0.nid, e1.role, e1.eid, e1.meta⟩ hll
      (fun e => (e.nid, e.role))
    rw [hgk] at R1
    rw [hgl] at R2
    have q1 : stubMS (flattenEdges
        (updateEdge edges d.i (E0.set d.k ⟨e1.nid, e0.role, e0.eid, e0.meta⟩))) +
        stubMS E0 = stubMS (flattenEdges edges) +
        stubMS (E0.set d.k ⟨e1.nid, e0.role, e0.eid, e0.meta⟩) := by
      have := Multiset.coe_eq_coe.2 (P1.map (fun e => (e.nid, e.role)))
      simpa [stubMS, List.map_append] using this
    have q2 : stubMS (flattenEdges E') +
        stubMS E1 = stubMS (flattenEdges
          (updateEdge edges d.i (E0.set d.k ⟨e1.nid, e0.role, e0.eid, e0.meta⟩))) +
        stubMS (E1.set d.l ⟨e0.nid, e1.role, e1.eid, e1.meta⟩) := by
      rw [hE]
      have := Multiset.coe_eq_coe.2 (P2.map (fun e => (e.nid, e.role)))
      simpa [stubMS, List.map_append] using this
    have r1 : stubMS (E0.set d.k ⟨e1.nid, e0.role, e0.eid, e0.meta⟩) +
        (↑[(e0.nid, e0.role)] : Multiset Stub) =
        stubMS E0 + (↑[(e1.nid, e0.role)] : Multiset Stub) := by
      simp only [stubMS, Multiset.coe_add]
      exact Multiset.coe_eq_coe.2 R1
    have r2 : stubMS (E1.set d.l ⟨e0.nid, e1.role, e1.eid, e1.meta⟩) +
        (↑[(e1.nid, e0.role)] : Multiset Stub) =
        stubMS E1 + (↑[(e0.nid, e0.role)] : Multiset Stub) := by
      simp only [stubMS, Multiset.coe_add]
      rw [hr]
      exact Multiset.coe_eq_coe.2 R2
    exact cancel_chain _ _ _ _ _ _ _ _ _ q2 q1 r1 r2

theorem step_deg_count (rl : Bool) (edges : EdgeMap) (d : Draw) (E' : EdgeMap)
    (h : mcmcAttempt rl edges d = StepResult.accepted E') :
    countDeg E' ≤ countDeg edges := by
  obtain ⟨E0, E1, e0, e1, h0, h1, hk, hl, _, hc0, hc1, hE⟩ :=
    mcmcAttempt_accepted_inv rl edges d E' h
  by_cases hij : d.i = d.j
  · rw [step_accepted_same_edge rl edges d E' hij h]
  · have hlookup1 : lookupEdge
        (updateEdge edges d.i (E0.set d.k ⟨e1.nid, e0.role, e0.eid, e0.meta⟩)) d.j =
        some E1 := by
      rw [lookup_updateEdge_ne edges d.i d.j _ hij]
      exact h1
    have Q1 := updateEdge_entries_perm edges d.i E0
      (E0.set d.k ⟨e1.nid, e0.role, e0.eid, e0.meta⟩) h0
    have Q2 := updateEdge_entries_perm
      (updateEdge edges d.i (E0.set d.k ⟨e1.nid, e0.role, e0.eid, e0.meta⟩)) d.j E1
      (E1.set d.l ⟨e0.nid, e1.role, e1.eid, e1.meta⟩) hlookup1
    have c1 := Q1.countP_eq (fun p => check_degenerate p.2)
    have c2 := Q2.countP_eq (fun p => check_degenerate p.2)
    simp only [List.countP_append, List.countP_cons, List.countP_nil, hc0, hc1] at c1 c2
    unfold countDeg
    rw [hE]
    simp only [if_false, Bool.false_eq_true] at c1 c2
    omega

theorem runMCMC_stub_multiset (draws : List Draw) (edges E' : EdgeMap)
    (h : runMCMC true edges draws = some E') :
    stubMS (flattenEdges E') = stubMS (flattenEdges edges) := by
  induction draws generalizing edges with
  | nil =>
    simp only [runMCMC] at h
    injection h with h
    rw [h]
  | cons d ds ih =>
    simp only [runMCMC] at h
    cases hstep : mcmcAttempt true edges d with
    | keyError => rw [hstep] at h; exact absurd h (by simp)
    | rejected => rw [hstep] at h; exact ih edges h
    | accepted E2 =>
      rw [hstep] at h
      exact (ih E2 h).trans (step_stub_multiset edges d E2 hstep)

theorem runMCMC_deg_mono (rl : Bool) (draws : List Draw) (edges E' : EdgeMap)
    (h : runMCMC rl edges draws = some E') : countDeg E' ≤ countDeg edges := by
  induction draws generalizing edges with
  | nil =>
    simp only [runMCMC] at h
    injection h with h
    rw [h]
  | cons d ds ih =>
    simp only [runMCMC] at h
    cases hstep : mcmcAttempt rl edges d with
    | keyError => rw [hstep] at h; exact absurd h (by simp)
    | rejected => rw [hstep] at h; exact ih edges h
    | accepted E2 =>
      rw [hstep] at h
      exact le_trans (ih E2 h) (step_deg_count rl edges d E2 hstep)

/-! Permutation bridge between the store's incidence list and the
sampler's per-edge grouping. -/

theorem sort_IL_perm (s : AHState) (bys : List FieldTag) (rev : Bool) :
    ((sort s bys rev).IL).Perm s.IL := by
  unfold sort
  split
  · exact List.Perm.refl _
  · exact List.perm_insertionSort _ _

theorem uniqueSorted_nodup (l : List Nat) : (uniqueSorted l).Nodup :=
  (List.perm_insertionSort _ _).nodup_iff.2 (List.nodup_dedup l)

theorem mem_uniqueSorted (l : List Nat) (a : Nat) : a ∈ uniqueSorted l ↔ a ∈ l := by
  unfold uniqueSorted
  rw [(List.perm_insertionSort _ _).mem_iff]
  exact List.mem_dedup

theorem uniqueSorted_sorted (l : List Nat) :
    (uniqueSorted l).Sorted (fun a b => a ≤ b) :=
  List.sorted_insertionSort _ _

theorem uniqueSorted_eq_of_perm (l₁ l₂ : List Nat) (h : l₁.Perm l₂) :
    uniqueSorted l₁ = uniqueSorted l₂ := by
  have hp : (uniqueSorted l₁).Perm (uniqueSorted l₂) :=
    ((List.perm_insertionSort _ _).trans (h.dedup)).trans
      (List.perm_insertionSort _ _).symm
  exact List.eq_of_perm_of_sorted hp (uniqueSorted_sorted l₁) (uniqueSorted_sorted l₂)

theorem filter_filter_sub (l : List NEI) (k e : Nat) (hne : e ≠ k) :
    (l.filter (fun x => !(x.eid == k))).filter (fun x => x.eid == e) =
      l.filter (fun x => x.eid == e) := by
  rw [List.filter_filter]
  apply List.filter_congr
  intro a _
  by_cases ha : a.eid = e
  · simp [ha, hne]
  · simp [ha]

theorem flatMap_filter_perm (keys : List Nat) (l : List NEI) (hnd : keys.Nodup)
    (hcov : ∀ x ∈ l, x.eid ∈ keys) :
    (keys.flatMap (fun e => l.filter (fun x => x.eid == e))).Perm l := by
  induction keys generalizing l with
  | nil =>
    cases l with
    | nil => simp
    | cons x xs => exact absurd (hcov x (by simp)) (by simp)
  | cons k ks ih =>
    rw [List.flatMap_cons]
    have hnd' : ks.Nodup := hnd.of_cons
    have hknot : k ∉ ks := by
      intro hmem
      exact (List.nodup_cons.1 hnd).1 hmem
    have hrw : ∀ e ∈ ks, l.filter (fun x => x.eid == e) =
        (l.filter (fun x => !(x.eid == k))).filter (fun x => x.eid == e) := by
      intro e he
      have hne : e ≠ k := fun hc => hknot (hc ▸ he)
      exact (filter_filter_sub l k e hne).symm
    have hmap : ks.map (fun e => l.filter (fun x => x.eid == e)) =
        ks.map (fun e => (l.filter (fun x => !(x.eid == k))).filter (fun x => x.eid == e)) :=
      List.map_congr_left hrw
    have hflat : ks.flatMap (fun e => l.filter (fun x => x.eid == e)) =
        ks.flatMap (fun e => (l.filter (fun x => !(x.eid == k))).filter
          (fun x => x.eid == e)) := by
      unfold List.flatMap
      rw [hmap]
    rw [hflat]
    have hcov' : ∀ x ∈ l.filter (fun x => !(x.eid == k)), x.eid ∈ ks := by
      intro x hx
      have hx1 : x ∈ l := List.mem_of_mem_filter hx
      have hx2 : ¬x.eid = k := by
        have := List.of_mem_filter hx
        simpa using this
      have := hcov x hx1
      rcases List.mem_cons.1 this with hc | hc
      · exact absurd hc hx2
      · exact hc
    have ihp := ih (l.filter (fun x => !(x.eid == k))) hnd' hcov'
    have := List.Perm.append_left (l.filter (fun x => x.eid == k)) ihp
    exact this.trans (List.filter_append_perm (fun x => x.eid == k) l)

theorem flattenEdges_map_pair (keys : List Nat) (f : Nat → List NEI) :
    flattenEdges (keys.map (fun e => (e, f e))) = keys.flatMap f := by
  induction keys with
  | nil => rfl
  | cons k ks ih =>
    rw [List.map_cons, flattenEdges_cons, List.flatMap_cons, ih]

theorem flattenEdges_buildEdges_perm (s : AHState) :
    (flattenEdges (buildEdges s)).Perm s.IL := by
  unfold buildEdges
  rw [flattenEdges_map_pair]
  have hperm := sort_IL_perm s [FieldTag.eid, FieldTag.role] false
  have hcov : ∀ x ∈ (sort s [FieldTag.eid, FieldTag.role] false).IL,
      x.eid ∈ uniqueSorted ((sort s [FieldTag.eid, FieldTag.role] false).IL.map
        (fun e => e.eid)) := by
    intro x hx
    rw [mem_uniqueSorted]
    exact List.mem_map_of_mem (fun e => e.eid) hx
  exact (flatMap_filter_perm _ _ (uniqueSorted_nodup _) hcov).trans hperm

/-- The multiset of node ids holding role r in an incidence list. -/
def roleNids (L : List NEI) (r : Nat) : Multiset Nat :=
  ((L.filter (fun x => x.role == r)).map (fun x => x.nid) : List Nat)

theorem roleNids_via_stub (L : List NEI) (r : Nat) :
    roleNids L r = Multiset.map Prod.fst ((stubMS L).filter (fun p => p.2 = r)) := by
  unfold roleNids stubMS
  rw [Multiset.filter_coe, Multiset.map_coe]
  rw [Multiset.coe_eq_coe]
  rw [List.filter_map, List.map_map]
  apply List.Perm.of_eq
  apply congrArg
  apply List.filter_congr
  intro a _
  by_cases h : a.role = r
  · simp [h]
  · simp [h]

theorem stubMS_of_perm (L₁ L₂ : List NEI) (h : L₁.Perm L₂) : stubMS L₁ = stubMS L₂ := by
  unfold stubMS
  exact Multiset.coe_eq_coe.2 (h.map _)

theorem length_of_stubMS_eq (L₁ L₂ : List NEI) (h : stubMS L₁ = stubMS L₂) :
    L₁.length = L₂.length := by
  have := congrArg Multiset.card h
  simpa [stubMS] using this

theorem check_degenerate_perm (E₁ E₂ : List NEI) (h : E₁.Perm E₂) :
    check_degenerate E₁ = check_degenerate E₂ := by
  unfold check_degenerate
  rw [h.length_eq, ((h.map (fun e => e.nid)).dedup).length_eq]

theorem count_degeneracies_eq_countDeg (s : AHState) :
    count_degeneracies s = countDeg (buildEdges s) := by
  unfold count_degeneracies countDeg buildEdges
  rw [List.countP_map, List.countP_map]
  have hperm : ((sort s [FieldTag.eid] false).IL).Perm
      ((sort s [FieldTag.eid, FieldTag.role] false).IL) :=
    (sort_IL_perm s [FieldTag.eid] false).trans
      (sort_IL_perm s [FieldTag.eid, FieldTag.role] false).symm
  have hkeys : uniqueSorted ((sort s [FieldTag.eid] false).IL.map (fun e => e.eid)) =
      uniqueSorted ((sort s [FieldTag.eid, FieldTag.role] false).IL.map (fun e => e.eid)) :=
    uniqueSorted_eq_of_perm _ _ (hperm.map _)
  rw [hkeys]
  apply List.countP_congr
  intro e _
  have hfil : ((sort s [FieldTag.eid] false).IL.filter (fun x => x.eid == e)).Perm
      ((sort s [FieldTag.eid, FieldTag.role] false).IL.filter (fun x => x.eid == e)) :=
    hperm.filter _
  simp only [Function.comp]
  rw [check_degenerate_perm _ _ hfil]

/-- Claim C1: running the degeneracy-avoiding sampler in role-preserving
mode (role_labels = True) over any sequence of draws leaves, for every
role r, the multiset of node ids holding role r across the whole
hypergraph unchanged (only the edge assignment of each (node, role) pair
is permuted), and preserves the total incidence count. -/
theorem mcmc_role_multiset_invariant (s : AHState) (draws : List Draw) (E' : EdgeMap)
    (h : runMCMC true (buildEdges s) draws = some E') :
    (∀ r, roleNids (flattenEdges E') r = roleNids s.IL r) ∧
      (flattenEdges E').length = s.IL.length := by
  have hstub : stubMS (flattenEdges E') = stubMS (flattenEdges (buildEdges s)) :=
    runMCMC_stub_multiset draws (buildEdges s) E' h
  have hstub2 : stubMS (flattenEdges (buildEdges s)) = stubMS s.IL :=
    stubMS_of_perm _ _ (flattenEdges_buildEdges_perm s)
  constructor
  · intro r
    rw [roleNids_via_stub, roleNids_via_stub, hstub, hstub2]
  · exact length_of_stubMS_eq _ _ (hstub.trans hstub2)

theorem mcmc_role_multiset_invariant_witness :
    roleNids (flattenEdges exE1) 0 = roleNids ex1.IL 0 ∧
      (flattenEdges exE1).length = ex1.IL.length :=
  ⟨(mcmc_role_multiset_invariant ex1 [⟨0, 1, 0, 0⟩] exE1 (by decide)).1 0,
   (mcmc_role_multiset_invariant ex1 [⟨0, 1, 0, 0⟩] exE1 (by decide)).2⟩

/-- Claim C2: in the degeneracy-avoiding sampler a proposal that would
make either touched edge degenerate is rejected, so an accepted step never
increases the number of degenerate edges of the edge dictionary, and a run
started from a hypergraph with no degenerate edge keeps that count at 0
after every accepted step. -/
theorem mcmc_no_new_degeneracies :
    (∀ (rl : Bool) (edges : EdgeMap) (d : Draw) (E' : EdgeMap),
      mcmcAttempt rl edges d = StepResult.accepted E' → countDeg E' ≤ countDeg edges) ∧
    (∀ (rl : Bool) (s : AHState) (draws : List Draw) (E' : EdgeMap),
      runMCMC rl (buildEdges s) draws = some E' → count_degeneracies s = 0 →
        countDeg E' = 0) := by
  constructor
  · exact step_deg_count
  · intro rl s draws E' h h0
    have hmono := runMCMC_deg_mono rl draws (buildEdges s) E' h
    rw [count_degeneracies_eq_countDeg] at h0
    omega

theorem mcmc_no_new_degeneracies_witness :
    countDeg exE1 ≤ countDeg (buildEdges ex1) ∧ countDeg exE1 = 0 :=
  ⟨mcmc_no_new_degeneracies.1 true (buildEdges ex1) ⟨0, 1, 0, 0⟩ exE1 (by decide),
   mcmc_no_new_degeneracies.2 true ex1 [⟨0, 1, 0, 0⟩] exE1 (by decide) (by decide)⟩

theorem spin_step_rejected (d : Draw) (hd : drawValidFor spinEdges 1 d) :
    mcmcAttempt true spinEdges d = StepResult.rejected := by
  obtain ⟨hi, hj, hk, hl⟩ := hd
  have hi0 : d.i = 0 := by omega
  have hj0 : d.j = 0 := by omega
  have hk2 : d.k < 2 := by
    rw [hi0] at hk
    simpa [spinEdges, lookupEdge] using hk
  have hl2 : d.l < 2 := by
    rw [hj0] at hl
    simpa [spinEdges, lookupEdge] using hl
  obtain ⟨i, j, k, l⟩ := d
  simp only at hi0 hj0 hk2 hl2
  subst hi0
  subst hj0
  interval_cases k <;> interval_cases l <;> decide

/-- Claim C3: the degeneracy-avoiding loop counts accepted proposals, not
attempts (a rejected draw re-enters the loop with the same accepted
counter), it only gives up with draws exhausted while the accepted counter
is still short of n_steps, and there are hypergraphs (a single degenerate
edge) on which every valid draw is rejected, so for every finite draw
supply the fuel-bounded embedding ends in the exhaustion branch with zero
accepted steps: the source's unbounded loop never terminates there. -/
theorem mcmc_loop_accepted_semantics :
    (∀ (rl : Bool) (n : Nat) (edges : EdgeMap) (acc : Nat) (d : Draw) (ds : List Draw),
      mcmcAttempt rl edges d = StepResult.rejected →
        mcmcLoop rl n edges acc (d :: ds) = mcmcLoop rl n edges acc ds) ∧
    (∀ (rl : Bool) (n : Nat) (edges : EdgeMap) (acc : Nat) (ds : List Draw)
      (E : EdgeMap) (acc' : Nat),
      mcmcLoop rl n edges acc ds = LoopResult.outOfDraws E acc' → acc' < n) ∧
    (∀ ds : List Draw, (∀ d ∈ ds, drawValidFor spinEdges 1 d) →
      mcmcLoop true 1 spinEdges 0 ds = LoopResult.outOfDraws spinEdges 0) := by
  refine ⟨?_, ?_, ?_⟩
  · intro rl n edges acc d ds hrej
    by_cases hacc : n ≤ acc
    · cases ds <;> simp [mcmcLoop, hacc]
    · simp [mcmcLoop, hacc, hrej]
  · intro rl n edges acc ds
    induction ds generalizing edges acc with
    | nil =>
      intro E acc' h
      by_cases hacc : n ≤ acc
      · simp [mcmcLoop, hacc] at h
      · simp [mcmcLoop, hacc] at h
        omega
    | cons d ds ih =>
      intro E acc' h
      by_cases hacc : n ≤ acc
      · simp [mcmcLoop, hacc] at h
      · simp only [mcmcLoop, if_neg hacc] at h
        cases hstep : mcmcAttempt rl edges d with
        | keyError => rw [hstep] at h; exact absurd h (by simp)
        | rejected => rw [hstep] at h; exact ih edges acc E acc' h
        | accepted E2 => rw [hstep] at h; exact ih E2 (acc + 1) E acc' h
  · intro ds hvalid
    induction ds with
    | nil => rfl
    | cons d ds ih =>
      have hrej := spin_step_rejected d (hvalid d (by simp))
      have hrest : ∀ d ∈ ds, drawValidFor spinEdges 1 d := by
        intro x hx
        exact hvalid x (by simp [hx])
      simp only [mcmcLoop, if_neg (by omega : ¬(1 ≤ 0)), hrej]
      exact ih hrest

theorem mcmc_loop_accepted_semantics_witness :
    mcmcLoop true 1 spinEdges 0 [⟨0, 0, 0, 1⟩] = mcmcLoop true 1 spinEdges 0 [] ∧
      (0 < 1) ∧
      mcmcLoop true 1 spinEdges 0 [⟨0, 0, 0, 1⟩] = LoopResult.outOfDraws spinEdges 0 :=
  ⟨mcmc_loop_accepted_semantics.1 true 1 spinEdges 0 ⟨0, 0, 0, 1⟩ [] (by decide),
   mcmc_loop_accepted_semantics.2.1 true 1 spinEdges 0 [] spinEdges 0 (by decide),
   mcmc_loop_accepted_semantics.2.2 [⟨0, 0, 0, 1⟩] (by decide)⟩

/-- Claim C5 (code bug in the source): sort never assigns the tracked
sort key — it is unchanged by every call — so after sort(by=k) the store
does not record k, a repeated sort(by=k) is not skipped (the skip test
compares against a key that sorting never set), and the tracked key does
not reflect the actual order of the incidence list; this contradicts the
method's own docstring. -/
theorem sort_never_records_key :
    (∀ (s : AHState) (bys : List FieldTag) (rev : Bool),
      (sort s bys rev).sort_key = s.sort_key) ∧
    (sort ex5 [FieldTag.role] false).sort_key = none ∧
    (sort ex5 [FieldTag.role] false).sort_key ≠ some [FieldTag.role] := by
  refine ⟨?_, by decide, by decide⟩
  intro s bys rev
  unfold sort
  split <;> rfl

/-- Claim C8 (code bug in the source): on a store whose only
dimension-1 edge has the smallest edge id 0, remove_singletons drops that
edge's incidence and reduces m from 2 to 1 as claimed, but the relabeled
edge ids are [1, 1] — a dense range starting at 1, not 0 (relabel's
sentinel old = 0 skips the bump only when the smallest id is already 0). -/
theorem remove_singletons_relabel_not_zero_based :
    ex8.m = 2 ∧
    (remove_singletons ex8).m = 1 ∧
    (remove_singletons ex8).IL.map (fun e => e.eid) = [1, 1] ∧
    (remove_singletons ex8).edge_list = [1] ∧
    0 ∉ (remove_singletons ex8).edge_list := by decide

/-- Claim C9: set_states — and with it construction, relabel,
remove_singletons and remove_degeneracies — resets the stored
role-interaction matrix R and the tracked sort key to None; consequently a
projection taken after assigning R and then running a maintenance
operation is computed with the all-ones default matrix. -/
theorem set_states_clears_R_and_key :
    (∀ s : AHState, (set_states s).R = none ∧ (set_states s).sort_key = none) ∧
    (∀ (IL : List NEI) (roles : List Nat),
      (init IL roles).R = none ∧ (init IL roles).sort_key = none) ∧
    (∀ s : AHState, (relabel s).R = none ∧ (relabel s).sort_key = none) ∧
    (∀ s : AHState,
      (remove_singletons s).R = none ∧ (remove_singletons s).sort_key = none) ∧
    (∀ (s : AHState) (prec : Nat → Nat),
      (remove_degeneracies s prec).R = none ∧
        (remove_degeneracies s prec).sort_key = none) ∧
    (∀ (s s' : AHState) (M : List (List ℚ)),
      assign_role_interaction_matrix s (some M) = some s' →
        to_weighted_projection (relabel s') =
          projWith (relabel s') (allOnes (relabel s').roles.length)) := by
  refine ⟨fun s => ⟨rfl, rfl⟩, fun IL roles => ⟨?_, ?_⟩, fun s => ⟨rfl, rfl⟩,
    fun s => ⟨rfl, rfl⟩, fun s prec => ⟨rfl, rfl⟩, fun s s' M _ => rfl⟩
  · unfold init sort
    split <;> rfl
  · unfold init sort
    split <;> rfl

/-- The store ex6 with an explicitly assigned 2 by 2 role-interaction
matrix. -/
def ex9s : AHState :=
  { ex6 with R := some [[(1 : ℚ), 2], [3, 4]] }

theorem set_states_clears_R_and_key_witness :
    to_weighted_projection (relabel ex9s) =
      projWith (relabel ex9s) (allOnes (relabel ex9s).roles.length) :=
  set_states_clears_R_and_key.2.2.2.2.2 ex6 ex9s [[(1 : ℚ), 2], [3, 4]] (by decide)

/-- Claim C10: the degeneracy-avoiding sampler draws its two edge indices
uniformly from [0, m) and uses them directly as keys of the edge
dictionary; with the store's m equal to the number of distinct edge ids,
every such lookup succeeds for every possible draw exactly when the edge
ids are the dense range 0..m-1 (otherwise some draw hits the KeyError
branch). -/
theorem mcmc_lookup_iff_dense (s : AHState) (hm : s.m = (edgeKeys s).length) :
    (∀ i, i < s.m → lookupEdge (buildEdges s) i ≠ none) ↔
      edgeKeys s = List.range s.m := by
  have hkeys : (buildEdges s).map Prod.fst = edgeKeys s := by
    unfold buildEdges edgeKeys
    rw [List.map_map]
    have hid : (Prod.fst ∘ fun e =>
        (e, (sort s [FieldTag.eid, FieldTag.role] false).IL.filter
          (fun x => x.eid == e))) = id := rfl
    rw [hid, List.map_id]
    exact uniqueSorted_eq_of_perm _ _
      ((sort_IL_perm s [FieldTag.eid, FieldTag.role] false).map (fun e => e.eid))
  have hlookup : ∀ i, lookupEdge (buildEdges s) i ≠ none ↔ i ∈ edgeKeys s := by
    intro i
    rw [← hkeys]
    constructor
    · intro hne
      by_contra hmem
      exact hne ((lookupEdge_eq_none_iff (buildEdges s) i).2 hmem)
    · intro hmem hnone
      exact ((lookupEdge_eq_none_iff (buildEdges s) i).1 hnone) hmem
  constructor
  · intro hall
    have hsub : List.range s.m ⊆ edgeKeys s := by
      intro i hi
      exact (hlookup i).1 (hall i (List.mem_range.1 hi))
    have hsp : (List.range s.m).Subperm (edgeKeys s) :=
      List.subperm_of_subset (List.nodup_range s.m) hsub
    have hperm : (List.range s.m).Perm (edgeKeys s) :=
      hsp.perm_of_length_le (by rw [List.length_range]; omega)
    have hs1 : (edgeKeys s).Sorted (fun a b => a ≤ b) := uniqueSorted_sorted _
    have hs2 : (List.range s.m).Sorted (fun a b => a ≤ b) := List.pairwise_le_range s.m
    exact List.eq_of_perm_of_sorted hperm.symm hs1 hs2
  · intro heq i hi
    rw [hlookup]
    rw [heq]
    exact List.mem_range.2 hi

theorem mcmc_lookup_iff_dense_witness :
    lookupEdge (buildEdges ex1) 1 ≠ none :=
  (mcmc_lookup_iff_dense ex1 (by decide)).mpr (by decide) 1 (by decide)

/-! Projection lemmas (Claim C7). -/

theorem foldl_projStep_eq_sum (roles : List Nat) (M : List (List ℚ)) (u v : Nat)
    (pairs : List (NEI × NEI)) :
    ∀ W0 : Nat → Nat → ℚ,
      (pairs.foldl (projStep roles M) W0) u v =
        W0 u v + (pairs.map (fun p =>
          if p.1.nid = u ∧ p.2.nid = v then
            Rget M (roleIndex roles p.1.role) (roleIndex roles p.2.role)
          else 0)).sum := by
  induction pairs with
  | nil => intro W0; simp
  | cons p ps ih =>
    intro W0
    rw [List.foldl_cons, ih, List.map_cons, List.sum_cons]
    by_cases h : p.1.nid = u ∧ p.2.nid = v
    · rw [if_pos h]
      have hstep : projStep roles M W0 p u v =
          W0 u v + Rget M (roleIndex roles p.1.role) (roleIndex roles p.2.role) := by
        unfold projStep
        rw [if_pos ⟨h.1.symm, h.2.symm⟩]
      rw [hstep]
      ring
    · rw [if_neg h]
      have hstep : projStep roles M W0 p u v = W0 u v := by
        unfold projStep
        rw [if_neg (fun hc => h ⟨hc.1.symm, hc.2.symm⟩)]
      rw [hstep]
      ring

theorem projWith_eq_sum (s : AHState) (M : List (List ℚ)) (u v : Nat) :
    projWith s M u v = ((projPairs s).map (fun p =>
      if p.1.nid = u ∧ p.2.nid = v then
        Rget M (roleIndex s.roles p.1.role) (roleIndex s.roles p.2.role)
      else 0)).sum := by
  unfold projWith
  rw [foldl_projStep_eq_sum]
  ring

theorem Rget_allOnes (k i j : Nat) (hi : i < k) (hj : j < k) :
    Rget (allOnes k) i j = 1 := by
  unfold Rget allOnes
  simp [List.getD_eq_getElem?_getD, List.getElem?_replicate, hi, hj]

theorem orderedPairs_mem (E : List NEI) (p : NEI × NEI) (hp : p ∈ orderedPairs E) :
    p.1 ∈ E ∧ p.2 ∈ E := by
  induction E with
  | nil => simp [orderedPairs] at hp
  | cons x xs ih =>
    unfold orderedPairs at hp
    rcases List.mem_append.1 hp with h1 | h2
    · rcases List.mem_append.1 h1 with ha | hb
      · obtain ⟨y, hy, hpy⟩ := List.mem_map.1 ha
        rw [← hpy]
        exact ⟨by simp, by simp [hy]⟩
      · obtain ⟨y, hy, hpy⟩ := List.mem_map.1 hb
        rw [← hpy]
        exact ⟨by simp [hy], by simp⟩
    · obtain ⟨hl, hr⟩ := ih h2
      exact ⟨by simp [hl], by simp [hr]⟩

theorem projPairs_mem (s : AHState) (p : NEI × NEI) (hp : p ∈ projPairs s) :
    p.1 ∈ s.IL ∧ p.2 ∈ s.IL := by
  unfold projPairs at hp
  obtain ⟨e, _, hpe⟩ := List.mem_flatMap.1 hp
  obtain ⟨h1, h2⟩ := orderedPairs_mem _ p hpe
  have hg : ∀ x : NEI, x ∈ (get_IL s).filter (fun y => y.eid == e) → x ∈ s.IL := by
    intro x hx
    exact (List.perm_insertionSort _ s.IL).mem_iff.1 (List.mem_of_mem_filter hx)
  exact ⟨hg p.1 h1, hg p.2 h2⟩

theorem sum_ite_bool {α : Type} (l : List α) (q : α → Bool) :
    (l.map (fun x => if q x then (1 : ℚ) else 0)).sum = (l.countP q : ℚ) := by
  induction l with
  | nil => simp
  | cons x xs ih =>
    rw [List.map_cons, List.sum_cons, ih, List.countP_cons]
    cases hq : q x <;> simp [hq] <;> push_cast <;> ring

theorem roleIndex_lt (roles : List Nat) (r : Nat) (h : r ∈ roles) :
    roleIndex roles r < roles.length := by
  unfold roleIndex
  exact List.indexOf_lt_length.2 h

/-- Claim C7: to_weighted_projection returns, for every ordered node pair
(u, v), the sum over all edges and over all ordered pairs of distinct
incidences (a, b) of that edge with a.nid = u and b.nid = v of
R[role(a), role(b)]; and when no role-interaction matrix has been
assigned, the all-ones default makes the result the directed
co-membership count of (u, v). -/
theorem to_weighted_projection_spec (s : AHState) (u v : Nat) :
    to_weighted_projection s u v = ((projPairs s).map (fun p =>
      if p.1.nid = u ∧ p.2.nid = v then
        Rget (s.R.getD (allOnes s.roles.length))
          (roleIndex s.roles p.1.role) (roleIndex s.roles p.2.role)
      else 0)).sum ∧
    (s.R = none → (∀ x ∈ s.IL, x.role ∈ s.roles) →
      to_weighted_projection s u v =
        (((projPairs s).countP (fun p => p.1.nid == u && p.2.nid == v) : Nat) : ℚ)) := by
  constructor
  · exact projWith_eq_sum s _ u v
  · intro hR hroles
    unfold to_weighted_projection
    rw [hR]
    rw [projWith_eq_sum]
    have hstep : ∀ p ∈ projPairs s,
        (if p.1.nid = u ∧ p.2.nid = v then
          Rget (Option.getD none (allOnes s.roles.length))
            (roleIndex s.roles p.1.role) (roleIndex s.roles p.2.role)
        else 0) =
        (if (p.1.nid == u && p.2.nid == v) then (1 : ℚ) else 0) := by
      intro p hp
      obtain ⟨h1, h2⟩ := projPairs_mem s p hp
      by_cases hc : p.1.nid = u ∧ p.2.nid = v
      · rw [if_pos hc, if_pos (by simp [hc.1, hc.2])]
        exact Rget_allOnes s.roles.length _ _
          (roleIndex_lt s.roles p.1.role (hroles p.1 h1))
          (roleIndex_lt s.roles p.2.role (hroles p.2 h2))
      · rw [if_neg hc, if_neg (by simpa using hc)]
    rw [List.map_congr_left hstep]
    exact sum_ite_bool (projPairs s) _

theorem to_weighted_projection_spec_witness :
    to_weighted_projection ex6 1 2 =
      (((projPairs ex6).countP (fun p => p.1.nid == 1 && p.2.nid == 2) : Nat) : ℚ) :=
  (to_weighted_projection_spec ex6 1 2).2 rfl (by decide)

/-! Step-allocation evaluation (Claim C4). -/

theorem rtrunc_of_bounds (x : ℝ) (z : ℤ) (h0 : 0 ≤ x) (h1 : (z : ℝ) ≤ x)
    (h2 : x < z + 1) : rtrunc x = z := by
  unfold rtrunc
  rw [if_pos h0]
  exact Int.floor_eq_iff.2 ⟨h1, h2⟩

/-- Claim C4 (code bug in the source): for partition sizes N = [2, 4] and
n_steps = 7, the code's step allocation — whose denominator is N_i times
the sum of the logarithms, because .sum() binds to np.log(N) alone —
yields [2, 4] (proportional to log N), while the allocation the spec
states (the coupon-collector heuristic named in the code's own comment,
proportional to N log N) yields [1, 5]. -/
theorem stub_labeled_steps_eval :
    stub_steps [2, 4] 7 = [2, 4] ∧ claimed_steps [2, 4] 7 = [1, 5] := by
  have hlog4 : Real.log 4 = 2 * Real.log 2 := by
    rw [show (4 : ℝ) = 2 ^ 2 by norm_num, Real.log_pow]
    push_cast
    ring
  have hL : (0 : ℝ) < Real.log 2 := Real.log_pos (by norm_num)
  have hLne : Real.log 2 ≠ 0 := ne_of_gt hL
  constructor
  · unfold stub_steps
    simp only [List.map_cons, List.map_nil, List.sum_cons, List.sum_nil]
    push_cast
    rw [hlog4]
    have e1 : (2 : ℝ) * Real.log 2 / (2 * (Real.log 2 + (2 * Real.log 2 + 0))) * 7 =
        7 / 3 := by
      field_simp
      ring
    have e2 : (4 : ℝ) * (2 * Real.log 2) / (4 * (Real.log 2 + (2 * Real.log 2 + 0))) * 7 =
        14 / 3 := by
      field_simp
      ring
    rw [e1, e2]
    rw [rtrunc_of_bounds (7 / 3 : ℝ) 2 (by norm_num) (by norm_num) (by norm_num)]
    rw [rtrunc_of_bounds (14 / 3 : ℝ) 4 (by norm_num) (by norm_num) (by norm_num)]
  · unfold claimed_steps
    simp only [List.map_cons, List.map_nil, List.sum_cons, List.sum_nil]
    push_cast
    rw [hlog4]
    have e1 : (2 : ℝ) * Real.log 2 / (2 * Real.log 2 + (4 * (2 * Real.log 2) + 0)) * 7 =
        7 / 5 := by
      field_simp
      ring
    have e2 : (4 : ℝ) * (2 * Real.log 2) / (2 * Real.log 2 + (4 * (2 * Real.log 2) + 0)) * 7 =
        28 / 5 := by
      field_simp
      ring
    rw [e1, e2]
    rw [rtrunc_of_bounds (7 / 5 : ℝ) 1 (by norm_num) (by norm_num) (by norm_num)]
    rw [rtrunc_of_bounds (28 / 5 : ℝ) 5 (by norm_num) (by norm_num) (by norm_num)]

/-! Stub-matching lemmas (Claim C6). -/

theorem sum_map_add (es : List Nat) (f g : Nat → Nat) :
    (es.map (fun e => f e + g e)).sum = (es.map f).sum + (es.map g).sum := by
  induction es with
  | nil => rfl
  | cons k ks ih =>
    simp only [List.map_cons, List.sum_cons, ih]
    omega

theorem sum_single_zero (es : List Nat) (a : Nat) (c : Nat) (ha : a ∉ es) :
    (es.map (fun e => if a = e then c else 0)).sum = 0 := by
  induction es with
  | nil => rfl
  | cons k ks ih =>
    have hk : a ≠ k := fun hc => ha (by simp [hc])
    have hks : a ∉ ks := fun hc => ha (by simp [hc])
    simp [hk, ih hks]

theorem sum_single (es : List Nat) (a : Nat) (c : Nat) (hnd : es.Nodup) (ha : a ∈ es) :
    (es.map (fun e => if a = e then c else 0)).sum = c := by
  induction es with
  | nil => simp at ha
  | cons k ks ih =>
    rcases List.mem_cons.1 ha with hak | haks
    · have hknot : k ∉ ks := (List.nodup_cons.1 hnd).1
      rw [hak]
      simp [sum_single_zero ks k c hknot]
    · have hne : a ≠ k := by
        intro hc
        exact (List.nodup_cons.1 hnd).1 (hc ▸ haks)
      simp [hne, ih (List.nodup_cons.1 hnd).2 haks]

theorem edr_countP (l : List NEI) (e r : Nat) :
    edge_dimensions_by_role l e r = l.countP (fun x => x.eid == e && x.role == r) := by
  induction l with
  | nil => rfl
  | cons x xs ih =>
    simp only [edge_dimensions_by_role, List.filter_cons] at ih ⊢
    by_cases he : x.eid = e <;> by_cases hr : x.role = r <;>
      simp [he, hr, ih, List.count_cons, List.countP_cons]

theorem countP_partition (l : List NEI) (es : List Nat) (q : NEI → Bool)
    (hcov : ∀ x ∈ l, x.eid ∈ es) (hnd : es.Nodup) :
    (es.map (fun e => l.countP (fun x => x.eid == e && q x))).sum = l.countP q := by
  induction l with
  | nil => simp
  | cons x xs ih =>
    have hcov' : ∀ y ∈ xs, y.eid ∈ es := fun y hy => hcov y (by simp [hy])
    rw [List.countP_cons, ← ih hcov']
    have hpt : es.map (fun e => (x :: xs).countP (fun y => y.eid == e && q y)) =
        es.map (fun e => xs.countP (fun y => y.eid == e && q y) +
          (if x.eid = e then (if q x then 1 else 0) else 0)) := by
      apply List.map_congr_left
      intro e _
      rw [List.countP_cons]
      by_cases he : x.eid = e <;> by_cases hq : q x <;> simp [he, hq]
    rw [hpt, sum_map_add]
    have hind : (es.map (fun e => if x.eid = e then (if q x then 1 else 0) else 0)).sum =
        (if q x then 1 else 0) := by
      by_cases hq : q x
      · simp only [if_pos hq]
        exact sum_single es x.eid 1 hnd (hcov x (by simp))
      · simp only [if_neg hq]
        simp
    rw [hind]

theorem takeChunk_countP (e e₀ r₀ r : Nat) (q : List Stub) (n : Nat)
    (hcont : ∀ p ∈ q, p.2 = r) (hn : n ≤ q.length) :
    ((q.take n).map (fun st => (⟨st.1, st.2, e, none⟩ : NEI))).countP
      (fun x => x.eid == e₀ && x.role == r₀) =
    if e₀ = e ∧ r₀ = r then n else 0 := by
  rw [List.countP_map]
  by_cases he : e₀ = e
  · by_cases hr : r₀ = r
    · rw [if_pos ⟨he, hr⟩]
      have hall : ∀ st ∈ q.take n,
          ((fun x : NEI => x.eid == e₀ && x.role == r₀) ∘
            (fun st : Stub => (⟨st.1, st.2, e, none⟩ : NEI))) st = true := by
        intro st hst
        have hsnd := hcont st (List.mem_of_mem_take hst)
        simp [Function.comp, he, hr, hsnd]
      rw [List.countP_eq_length.2 hall, List.length_take]
      omega
    · rw [if_neg (fun hc => hr hc.2)]
      rw [List.countP_eq_zero.2]
      intro st hst
      have hsnd := hcont st (List.mem_of_mem_take hst)
      simp only [Function.comp, hsnd, Bool.and_eq_true, beq_iff_eq]
      intro hc
      exact hr hc.2.symm
  · rw [if_neg (fun hc => he hc.1)]
    rw [List.countP_eq_zero.2]
    intro st _
    simp only [Function.comp, Bool.and_eq_true, beq_iff_eq]
    intro hc
    exact he hc.1.symm

theorem takeEdge_eq (dims : Nat → Nat → Nat) (e : Nat)
    (queues : List (Nat × List Stub))
    (hlen : ∀ rq ∈ queues, dims e rq.1 ≤ rq.2.length) :
    takeEdge dims e queues = some
      ((queues.map (fun rq => (rq.2.take (dims e rq.1)).map
        (fun st => (⟨st.1, st.2, e, none⟩ : NEI)))).flatten,
       queues.map (fun rq => (rq.1, rq.2.drop (dims e rq.1)))) := by
  induction queues with
  | nil => rfl
  | cons rq rest ih =>
    have hq := hlen rq (by simp)
    have hrest : ∀ x ∈ rest, dims e x.1 ≤ x.2.length := fun x hx => hlen x (by simp [hx])
    unfold takeEdge
    rw [if_pos hq, ih hrest]
    simp [List.flatten_cons]

theorem chunk_countP (dims : Nat → Nat → Nat) (e e₀ r₀ : Nat)
    (queues : List (Nat × List Stub))
    (hk : (queues.map Prod.fst).Nodup)
    (hcont : ∀ rq ∈ queues, ∀ p ∈ rq.2, p.2 = rq.1)
    (hlen : ∀ rq ∈ queues, dims e rq.1 ≤ rq.2.length) :
    ((queues.map (fun rq => (rq.2.take (dims e rq.1)).map
      (fun st => (⟨st.1, st.2, e, none⟩ : NEI)))).flatten).countP
        (fun x => x.eid == e₀ && x.role == r₀) =
    if e₀ = e ∧ r₀ ∈ queues.map Prod.fst then dims e₀ r₀ else 0 := by
  induction queues with
  | nil => simp
  | cons rq rest ih =>
    simp only [List.map_cons, List.flatten_cons, List.countP_append]
    rw [takeChunk_countP e e₀ r₀ rq.1 rq.2 (dims e rq.1) (hcont rq (by simp))
      (hlen rq (by simp))]
    have hk' : (rest.map Prod.fst).Nodup := (List.nodup_cons.1 (by simpa using hk)).2
    have hknot : rq.1 ∉ rest.map Prod.fst := (List.nodup_cons.1 (by simpa using hk)).1
    rw [ih hk' (fun x hx => hcont x (by simp [hx])) (fun x hx => hlen x (by simp [hx]))]
    by_cases he : e₀ = e
    · by_cases hr : r₀ = rq.1
      · rw [he, hr]
        rw [if_pos ⟨rfl, rfl⟩]
        rw [if_neg (fun hc => hknot hc.2)]
        rw [if_pos ⟨rfl, by simp⟩]
        omega
      · rw [if_neg (fun hc => hr hc.2)]
        have hmem : r₀ ∈ (rq :: rest).map Prod.fst ↔ r₀ ∈ rest.map Prod.fst := by
          simp [List.map_cons, hr]
        by_cases hrrest : r₀ ∈ rest.map Prod.fst
        · rw [if_pos ⟨he, hrrest⟩, if_pos ⟨he, hmem.2 hrrest⟩]
          omega
        · rw [if_neg (fun hc => hrrest hc.2), if_neg (fun hc => hrrest (hmem.1 hc.2))]
    · rw [if_neg (fun hc => he hc.1), if_neg (fun hc => he hc.1),
        if_neg (fun hc => he hc.1)]

theorem buildAll_spec (dims : Nat → Nat → Nat) (es : List Nat) :
    ∀ queues : List (Nat × List Stub),
    (queues.map Prod.fst).Nodup →
    es.Nodup →
    (∀ rq ∈ queues, ∀ p ∈ rq.2, p.2 = rq.1) →
    (∀ rq ∈ queues, rq.2.length = (es.map (fun e => dims e rq.1)).sum) →
    ∃ IL2, buildAll dims es queues = some IL2 ∧
      ∀ e₀ r₀, IL2.countP (fun x => x.eid == e₀ && x.role == r₀) =
        if e₀ ∈ es ∧ r₀ ∈ queues.map Prod.fst then dims e₀ r₀ else 0 := by
  induction es with
  | nil =>
    intro queues _ _ _ _
    exact ⟨[], rfl, fun e₀ r₀ => by simp⟩
  | cons e es ih =>
    intro queues hk hes hcont hlen
    have hlen1 : ∀ rq ∈ queues, dims e rq.1 ≤ rq.2.length := by
      intro rq hrq
      rw [hlen rq hrq, List.map_cons, List.sum_cons]
      omega
    have hstep := takeEdge_eq dims e queues hlen1
    have hk' : ((queues.map (fun rq => (rq.1, rq.2.drop (dims e rq.1)))).map
        Prod.fst).Nodup := by
      rw [List.map_map]
      exact hk
    have hcont' : ∀ rq' ∈ queues.map (fun rq => (rq.1, rq.2.drop (dims e rq.1))),
        ∀ p ∈ rq'.2, p.2 = rq'.1 := by
      intro rq' hrq' p hp
      obtain ⟨rq, hrq, hrqeq⟩ := List.mem_map.1 hrq'
      rw [← hrqeq] at hp ⊢
      exact hcont rq hrq p (List.mem_of_mem_drop hp)
    have hlen' : ∀ rq' ∈ queues.map (fun rq => (rq.1, rq.2.drop (dims e rq.1))),
        rq'.2.length = (es.map (fun e' => dims e' rq'.1)).sum := by
      intro rq' hrq'
      obtain ⟨rq, hrq, hrqeq⟩ := List.mem_map.1 hrq'
      rw [← hrqeq]
      simp only [List.length_drop]
      have := hlen rq hrq
      rw [List.map_cons, List.sum_cons] at this
      omega
    obtain ⟨IL2, hbuild, hcount⟩ := ih _ hk' hes.of_cons hcont' hlen'
    refine ⟨((queues.map (fun rq => (rq.2.take (dims e rq.1)).map
      (fun st => (⟨st.1, st.2, e, none⟩ : NEI)))).flatten) ++ IL2, ?_, ?_⟩
    · simp only [buildAll, hstep, hbuild]
    · intro e₀ r₀
      rw [List.countP_append]
      rw [chunk_countP dims e e₀ r₀ queues hk hcont hlen1, hcount]
      have hkeys : (queues.map (fun rq => (rq.1, rq.2.drop (dims e rq.1)))).map Prod.fst =
          queues.map Prod.fst := by
        rw [List.map_map]
        rfl
      rw [hkeys]
      by_cases he : e₀ = e
      · have henotin : e₀ ∉ es := fun hc => (List.nodup_cons.1 hes).1 (he ▸ hc)
        by_cases hr : r₀ ∈ queues.map Prod.fst
        · rw [if_pos ⟨he, hr⟩, if_neg (fun hc => henotin hc.1),
            if_pos ⟨List.mem_cons.2 (Or.inl he), hr⟩]
          omega
        · rw [if_neg (fun hc => hr hc.2), if_neg (fun hc => hr hc.2),
            if_neg (fun hc => hr hc.2)]
      · by_cases hin : e₀ ∈ es
        · by_cases hr : r₀ ∈ queues.map Prod.fst
          · rw [if_neg (fun hc => he hc.1), if_pos ⟨hin, hr⟩,
              if_pos ⟨List.mem_cons.2 (Or.inr hin), hr⟩]
            omega
          · rw [if_neg (fun hc => hr hc.2), if_neg (fun hc => hr hc.2),
              if_neg (fun hc => hr hc.2)]
        · rw [if_neg (fun hc => he hc.1), if_neg (fun hc => hin hc.1),
            if_neg (fun hc => (List.mem_cons.1 hc.1).elim he hin)]

/-- Claim C6: stub_matching returns a new store (built on a copy, the
original left unmodified — immediate in this effect-free embedding, where
the input store is untouched by construction) whose per-edge, per-role
dimension matrix edge_dimensions(by_role=True) is identical to the
input's, for every edge and every role.  Preconditions reflecting the
store's own invariants: the shuffle is a permutation of the stub list, the
declared roles are distinct and cover every incidence, and edge_list is
the fresh derived state of IL. -/
theorem stub_matching_preserves_dims (s : AHState) (shuffled : List Stub)
    (hperm : shuffled.Perm (stubList s.IL))
    (hroles : s.roles.Nodup)
    (hcov : ∀ x ∈ s.IL, x.role ∈ s.roles)
    (hedge : s.edge_list = uniqueSorted (s.IL.map (fun e => e.eid))) :
    ∃ s', stub_matching s shuffled = some s' ∧
      ∀ e r, edge_dimensions_by_role s'.IL e r = edge_dimensions_by_role s.IL e r := by
  have hILperm : ((sort s [FieldTag.role] false).IL).Perm s.IL :=
    sort_IL_perm s [FieldTag.role] false
  have hss : (shuffled.insertionSort (fun a b => a.2 ≤ b.2)).Perm (stubList s.IL) :=
    (List.perm_insertionSort _ _).trans hperm
  have hkeys : (s.roles.map (fun r =>
      (r, (shuffled.insertionSort (fun a b => a.2 ≤ b.2)).filter
        (fun p => p.2 == r)))).map Prod.fst = s.roles := by
    rw [List.map_map]
    have hid : (Prod.fst ∘ fun r : Nat =>
        (r, (shuffled.insertionSort (fun a b => a.2 ≤ b.2)).filter
          (fun p => p.2 == r))) = id := rfl
    rw [hid, List.map_id]
  have hednd : s.edge_list.Nodup := by
    rw [hedge]
    exact uniqueSorted_nodup _
  have hecov : ∀ x ∈ (sort s [FieldTag.role] false).IL, x.eid ∈ s.edge_list := by
    intro x hx
    rw [hedge, mem_uniqueSorted]
    exact List.mem_map_of_mem (fun e => e.eid) (hILperm.mem_iff.1 hx)
  have hcont : ∀ rq ∈ s.roles.map (fun r =>
      (r, (shuffled.insertionSort (fun a b => a.2 ≤ b.2)).filter
        (fun p => p.2 == r))), ∀ p ∈ rq.2, p.2 = rq.1 := by
    intro rq hrq p hp
    obtain ⟨r, _, hrqeq⟩ := List.mem_map.1 hrq
    rw [← hrqeq] at hp ⊢
    have := List.of_mem_filter hp
    simpa using this
  have hlen : ∀ rq ∈ s.roles.map (fun r =>
      (r, (shuffled.insertionSort (fun a b => a.2 ≤ b.2)).filter
        (fun p => p.2 == r))),
      rq.2.length = (s.edge_list.map (fun e =>
        edge_dimensions_by_role (sort s [FieldTag.role] false).IL e rq.1)).sum := by
    intro rq hrq
    obtain ⟨r, _, hrqeq⟩ := List.mem_map.1 hrq
    rw [← hrqeq]
    have h1 : ((shuffled.insertionSort (fun a b => a.2 ≤ b.2)).filter
        (fun p => p.2 == r)).length =
        (stubList s.IL).countP (fun p => p.2 == r) := by
      rw [← List.countP_eq_length_filter]
      exact hss.countP_eq _
    have h2 : (stubList s.IL).countP (fun p => p.2 == r) =
        s.IL.countP (fun x => x.role == r) := by
      unfold stubList
      rw [List.countP_map]
      rfl
    have h3 : s.IL.countP (fun x => x.role == r) =
        ((sort s [FieldTag.role] false).IL).countP (fun x => x.role == r) :=
      (hILperm.countP_eq _).symm
    have h4 : (s.edge_list.map (fun e =>
        ((sort s [FieldTag.role] false).IL).countP
          (fun x => x.eid == e && x.role == r))).sum =
        ((sort s [FieldTag.role] false).IL).countP (fun x => x.role == r) :=
      countP_partition _ s.edge_list (fun x => x.role == r) hecov hednd
    have h5 : s.edge_list.map (fun e =>
        ((sort s [FieldTag.role] false).IL).countP
          (fun x => x.eid == e && x.role == r)) =
        s.edge_list.map (fun e =>
          edge_dimensions_by_role (sort s [FieldTag.role] false).IL e r) := by
      apply List.map_congr_left
      intro e _
      exact (edr_countP _ e r).symm
    rw [h1, h2, h3, ← h4, h5]
  have hk : ((s.roles.map (fun r =>
      (r, (shuffled.insertionSort (fun a b => a.2 ≤ b.2)).filter
        (fun p => p.2 == r)))).map Prod.fst).Nodup := by
    rw [hkeys]
    exact hroles
  obtain ⟨IL2, hbuild, hcount⟩ := buildAll_spec
    (fun e r => edge_dimensions_by_role (sort s [FieldTag.role] false).IL e r)
    s.edge_list _ hk hednd hcont hlen
  refine ⟨set_states { (sort s [FieldTag.role] false) with IL := IL2 }, ?_, ?_⟩
  · simp only [stub_matching, hbuild]
  · intro e r
    have hIL2 : (set_states { (sort s [FieldTag.role] false) with IL := IL2 }).IL =
        IL2 := rfl
    rw [hIL2, edr_countP, hcount e r, hkeys]
    by_cases hein : e ∈ s.edge_list
    · by_cases hrin : r ∈ s.roles
      · rw [if_pos ⟨hein, hrin⟩]
        rw [edr_countP, edr_countP]
        exact hILperm.countP_eq _
      · rw [if_neg (fun hc => hrin hc.2)]
        symm
        rw [edr_countP, List.countP_eq_zero.2]
        intro x hx
        simp only [Bool.and_eq_true, beq_iff_eq]
        intro hc
        exact hrin (hc.2 ▸ hcov x hx)
    · rw [if_neg (fun hc => hein hc.1)]
      symm
      rw [edr_countP, List.countP_eq_zero.2]
      intro x hx
      simp only [Bool.and_eq_true, beq_iff_eq]
      intro hc
      apply hein
      rw [← hc.1]
      rw [hedge, mem_uniqueSorted]
      exact List.mem_map_of_mem (fun e => e.eid) hx

theorem stub_matching_preserves_dims_witness :
    ∃ s', stub_matching ex6 (stubList ex6.IL) = some s' ∧
      ∀ e r, edge_dimensions_by_role s'.IL e r = edge_dimensions_by_role ex6.IL e r :=
  stub_matching_preserves_dims ex6 (stubList ex6.IL) (List.Perm.refl _)
    (by decide) (by decide) (by decide)

end Ahyper
